import Mathlib

/-!
Verification of the zinc HTTP router (trie-based route matching and
middleware chaining).  The definitions below are shallow embeddings of
the Go sources:

* `Act`, `Ctx`, `exec`, `runChain`  — `src/zinc/context.go` (`Context.Next`,
  `Context.Fail`) together with the final `c.Next()` call of
  `router.handle` in `src/zinc/router.go`;
* `Node`, `Node.insert`, `Node.matchChildren`, `Node.search` —
  the prefix-tree of `src/unnamed/part_000`;
* `parsePattern`, `Router`, `addRoute`, `getRoute` — `src/zinc/router.go`.

Go mutation is rendered as explicit state passing, Go maps as association
lists with update-in-place-or-append semantics, and `nil` results as
`Option`.
-/

set_option maxHeartbeats 1000000

namespace Zinc

/-! ## Middleware chain (src/zinc/context.go)

A handler body is modelled as a list of primitive actions: record a label,
call `Context.Next`, or call `Context.Fail`.  `Fail` sets the cursor to the
chain length (`c.index = len(c.handlers)`); the JSON body it writes is
irrelevant to the control-flow claims and is not modelled.  The interpreter
carries an explicit fuel so that it is structurally recursive; every
recursive call consumes one unit of fuel.  All claims are stated at fuels
large enough for the computation to run to completion. -/

inductive Act where
  | log (s : String)
  | next
  | fail
deriving DecidableEq

structure Ctx where
  handlers : List (List Act)
  index : Int
  log : List String
deriving DecidableEq

inductive Task where
  | acts (as : List Act)
  | act (a : Act)
  | loop
deriving DecidableEq

/-- Fuelled interpreter for the middleware chain.
`Task.act Act.next` models `Context.Next`: `c.index++` followed by the loop
`for ; c.index < len(c.handlers); c.index++ { c.handlers[c.index](c) }`.
`Task.act Act.fail` models `Context.Fail`: `c.index = len(c.handlers)`.
`Task.loop` is one check of the loop condition (run the handler at the
cursor, then `c.index++`, then re-check), and `Task.acts` runs a handler
body action by action. -/
def exec : Nat → Ctx → Task → Ctx
  | 0, c, _ => c
  | _fuel+1, c, Task.acts [] => c
  | fuel+1, c, Task.acts (a :: rest) => exec fuel (exec fuel c (Task.act a)) (Task.acts rest)
  | _fuel+1, c, Task.act (Act.log s) => { c with log := c.log ++ [s] }
  | _fuel+1, c, Task.act Act.fail => { c with index := (c.handlers.length : Int) }
  | fuel+1, c, Task.act Act.next => exec fuel { c with index := c.index + 1 } Task.loop
  | fuel+1, c, Task.loop =>
      if c.index < (c.handlers.length : Int) then
        let c' := exec fuel c (Task.acts (c.handlers.getD c.index.toNat []))
        exec fuel { c' with index := c'.index + 1 } Task.loop
      else c

/-- `newContext` initialises the cursor to `-1`. -/
def newCtx (hs : List (List Act)) : Ctx := { handlers := hs, index := -1, log := [] }

/-- `router.handle` ends with `c.Next()` on a context whose handler list is
already fully built; running a chain executes that call on a fresh context
and returns the recorded log. -/
def runChain (fuel : Nat) (hs : List (List Act)) : List String :=
  (exec fuel (newCtx hs) (Task.act Act.next)).log

/-- A middleware that calls `Next` exactly once, with code before and after
the call that records one label each. -/
def mwActs (pre post : String) : List Act := [Act.log pre, Act.next, Act.log post]

/-! ## Prefix tree (src/unnamed/part_000) -/

/-- Trie node: `pattern` is the full registered route if the node terminates
a registered route and `""` otherwise; `part` is the path segment the node
represents; `isWild` is true for `:`/`*` segments. -/
inductive Node where
  | mk (pattern : String) (part : String) (children : List Node) (isWild : Bool)

def Node.pattern : Node → String
  | Node.mk p _ _ _ => p

def Node.part : Node → String
  | Node.mk _ s _ _ => s

def Node.children : Node → List Node
  | Node.mk _ _ cs _ => cs

def Node.isWild : Node → Bool
  | Node.mk _ _ _ w => w

/-- Go's byte test `s[0] == ch` on a string known to be non-empty (the code
only applies it to segments produced by `parsePattern`, which are non-empty;
on the empty string Go would panic, here the test is `false`). -/
def headIs (ch : Char) (s : String) : Bool :=
  match s.data with
  | [] => false
  | c :: _ => c == ch

/-- `part[0] == ':' || part[0] == '*'` — is the segment dynamic? -/
def isDynPart (part : String) : Bool := headIs ':' part || headIs '*' part

/-- The matching test of `node.matchChild`: a child matches the inserted
segment if its `part` is equal to it verbatim, or the inserted segment is
dynamic and the child is a wildcard (the strengthened check that prevents a
dynamic registration from being silently re-targeted). -/
def matchPred (part : String) (child : Node) : Bool :=
  child.part == part || (isDynPart part && child.isWild)

/-- `matchChild` returns the first child satisfying `matchPred` (or `nil`). -/
def Node.matchChild (n : Node) (part : String) : Option Node :=
  n.children.find? (matchPred part)

/-- Apply `f` in place to the first element satisfying `pred`; `none` when
no element matches.  This renders `insert`'s use of `matchChild`, which
returns a pointer into the child list that is then mutated in place. -/
def updateMatched (pred : Node → Bool) (f : Node → Node) : List Node → Option (List Node)
  | [] => none
  | c :: cs =>
      if pred c then some (f c :: cs)
      else (updateMatched pred f cs).map (c :: ·)

/-- `node.insert(pattern, parts, height)`, with `rest = parts[height:]`.
At the terminal depth the node's `pattern` is set to the full route string;
otherwise the first matching child is descended into (in place), or a fresh
child is appended and descended into. -/
def Node.insert (n : Node) (pat : String) : List String → Node
  | [] => Node.mk pat n.part n.children n.isWild
  | part :: tail =>
      match updateMatched (matchPred part) (fun c => c.insert pat tail) n.children with
      | some cs' => Node.mk n.pattern n.part cs' n.isWild
      | none =>
          Node.mk n.pattern n.part
            (n.children ++ [(Node.mk "" part [] (isDynPart part)).insert pat tail]) n.isWild

/-- One pass of `matchChildren`'s loop, accumulating the static matches
(`child.part == part`) and the wildcard matches separately, preserving
child order inside each class. -/
def matchChildrenAux (part : String) : List Node → List Node × List Node
  | [] => ([], [])
  | c :: cs =>
      let (ns, ws) := matchChildrenAux part cs
      if c.part == part then (c :: ns, ws)
      else if c.isWild then (ns, c :: ws)
      else (ns, ws)

/-- `node.matchChildren`: all candidate children for a request segment,
static matches first, wildcard matches after. -/
def Node.matchChildren (n : Node) (part : String) : List Node :=
  let (ns, ws) := matchChildrenAux part n.children
  ns ++ ws

/-- First `some` result of `f` over a list (the `for` loop of `search` that
returns the first non-nil recursive result). -/
def firstSome (f : Node → Option Node) : List Node → Option Node
  | [] => none
  | c :: cs =>
      match f c with
      | some r => some r
      | none => firstSome f cs

/-- `node.search(parts, height)`, with `rest = parts[height:]`.  Terminates
successfully at exhausted input or at a `*` segment, provided the node's
`pattern` is non-empty; otherwise tries each candidate child depth-first. -/
def Node.search (n : Node) : List String → Option Node
  | [] => if n.pattern = "" then none else some n
  | part :: tail =>
      if headIs '*' n.part then
        if n.pattern = "" then none else some n
      else
        firstSome (fun c => c.search tail) (n.matchChildren part)

/-! ## Router (src/zinc/router.go)

Go maps (`roots`, `handlers`) are association lists with
update-in-place-or-append semantics; `HandlerFunc` values are abstract
(`Router` is polymorphic in the handler type). -/

/-- `strings.Split(s, sep)` for a one-character separator (the only use in
the code is `strings.Split(pattern, "/")`): the list of (possibly empty)
runs between occurrences of the separator.  `splitOnChar sep "" = [""]`,
exactly as in Go. -/
def splitOnChar (sep : Char) : List Char → List String
  | [] => [""]
  | c :: cs =>
      let rest := splitOnChar sep cs
      if c == sep then "" :: rest
      else
        match rest with
        | [] => [String.mk [c]]
        | r :: rs => String.mk (c :: r.data) :: rs

/-- Go's byte slice `s[1:]` on a segment whose first character is ASCII
(`:` or `*` at every call site). -/
def dropFirst (s : String) : String := String.mk (s.data.drop 1)

/-- The collection loop of `parsePattern`: keep the non-empty items of
`strings.Split(pattern, "/")`, stopping at (and including) the first item
whose first byte is `*`. -/
def parsePatternAux : List String → List String
  | [] => []
  | item :: rest =>
      if item = "" then parsePatternAux rest
      else if headIs '*' item then [item]
      else item :: parsePatternAux rest

/-- `parsePattern(pattern)`. -/
def parsePattern (pattern : String) : List String :=
  parsePatternAux (splitOnChar '/' pattern.data)

/-- Go map read `m[k]` (first binding wins; `addKV` keeps keys unique). -/
def lookupKV {β : Type _} (l : List (String × β)) (k : String) : Option β :=
  (l.find? (fun e => e.1 == k)).map (·.2)

/-- Go map write `m[k] = v`: replace the existing binding, else append. -/
def addKV {β : Type _} (l : List (String × β)) (k : String) (v : β) : List (String × β) :=
  match l with
  | [] => [(k, v)]
  | e :: rest => if e.1 == k then (k, v) :: rest else e :: addKV rest k v

/-- `router`: one trie root per method plus the flat handler table. -/
structure Router (H : Type _) where
  roots : List (String × Node)
  handlers : List (String × H)

/-- `newRouter()`. -/
def newRouter (H : Type _) : Router H := { roots := [], handlers := [] }

/-- `router.addRoute(method, pattern, handler)`: register the handler under
`method + "-" + pattern`, create the method's root lazily, insert the
pattern's parts into the trie. -/
def addRoute {H : Type _} (r : Router H) (method pat : String) (h : H) : Router H :=
  let parts := parsePattern pat
  let key := method ++ "-" ++ pat
  let root := (lookupKV r.roots method).getD (Node.mk "" "" [] false)
  { roots := addKV r.roots method (root.insert pat parts),
    handlers := addKV r.handlers key h }

/-- The parameter-extraction loop of `getRoute`, over the matched pattern's
parts: a `:`-segment at position `index` binds its name to
`searchParts[index]` (Go panics when the index is out of range; here the
access is `getD` with default `""`, and the safety theorem for the routing
code shows the index is always in range); a `*`-segment of length `> 1`
binds its name to the remaining search parts rejoined with `/` and stops
the scan. -/
def extractParams : List String → List String → Nat → List (String × String)
  | [], _, _ => []
  | part :: rest, searchParts, index =>
      if headIs '*' part then
        if part.length > 1 then [(dropFirst part, String.intercalate "/" (searchParts.drop index))]
        else extractParams rest searchParts (index + 1)
      else if headIs ':' part then
        (dropFirst part, searchParts.getD index "") :: extractParams rest searchParts (index + 1)
      else extractParams rest searchParts (index + 1)

/-- The body of `router.getRoute` after the request path has been split
into `searchParts`: find the method's root, run `search`, and on a match
extract the parameters by zipping the registered pattern's parts against
the request's parts.  Returns `none` for Go's `(nil, nil)`. -/
def getRouteParts {H : Type _} (r : Router H) (method : String) (searchParts : List String) :
    Option (Node × List (String × String)) :=
  match lookupKV r.roots method with
  | none => none
  | some root =>
      match root.search searchParts with
      | none => none
      | some n => some (n, extractParams (parsePattern n.pattern) searchParts 0)

/-- `router.getRoute(method, path)`. -/
def getRoute {H : Type _} (r : Router H) (method path : String) :
    Option (Node × List (String × String)) :=
  getRouteParts r method (parsePattern path)

/-- A router built from scratch by a sequence of `addRoute` calls. -/
def buildRouter {H : Type _} (ops : List (String × String × H)) : Router H :=
  ops.foldl (fun r op => addRoute r op.1 op.2.1 op.2.2) (newRouter H)

/-- The trie-depth invariant, cut off below depth `k`: every node reachable
within `k` steps from a node assumed to sit at depth `d` stores, if it is a
registered endpoint, a pattern with exactly as many parsed segments as its
depth. -/
def InvUpTo : Nat → Nat → Node → Prop
  | 0, d, n => n.pattern ≠ "" → (parsePattern n.pattern).length = d
  | k+1, d, n => (n.pattern ≠ "" → (parsePattern n.pattern).length = d) ∧
      ∀ c ∈ n.children, InvUpTo k (d+1) c

/-- All patterns stored within `d` levels below a node. -/
def patternsUpTo : Nat → Node → List String
  | 0, n => [n.pattern]
  | d+1, n => n.pattern :: (n.children.map (patternsUpTo d)).flatten

/-- Every trie root of a router satisfies the depth invariant at depth 0. -/
def RootsInv {H : Type _} (r : Router H) : Prop :=
  ∀ (m : String) (root : Node), lookupKV r.roots m = some root → ∀ k, InvUpTo k 0 root

/-- Every non-empty pattern stored in any trie of the router has a handler
registered under `method + "-" + pattern`. -/
def HandlersInv {H : Type _} (r : Router H) : Prop :=
  ∀ (m : String) (root : Node), lookupKV r.roots m = some root →
    ∀ (d : Nat) (q : String), q ∈ patternsUpTo d root → q ≠ "" →
      lookupKV r.handlers (m ++ "-" ++ q) ≠ none

theorem insert_part (n : Node) (p : String) : ∀ rest, (n.insert p rest).part = n.part
  | [] => rfl
  | part :: tail => by
      unfold Node.insert
      cases updateMatched (matchPred part) (fun c => Node.insert c p tail) n.children <;> rfl

theorem insert_isWild (n : Node) (p : String) : ∀ rest, (n.insert p rest).isWild = n.isWild
  | [] => rfl
  | part :: tail => by
      unfold Node.insert
      cases updateMatched (matchPred part) (fun c => Node.insert c p tail) n.children <;> rfl

theorem matchPred_insert (part : String) (c : Node) (p : String) (rest : List String) :
    matchPred part (c.insert p rest) = matchPred part c := by
  unfold matchPred
  rw [insert_part, insert_isWild]

theorem updateMatched_eq_none {pred : Node → Bool} {f : Node → Node} :
    ∀ {cs : List Node}, updateMatched pred f cs = none ↔ ∀ c ∈ cs, pred c = false := by
  intro cs
  induction cs with
  | nil => simp [updateMatched]
  | cons c cs ih =>
      by_cases h : pred c = true
      · simp [updateMatched, h]
      · simp at h
        simp [updateMatched, h, ih]

theorem updateMatched_eq_some {pred : Node → Bool} {f : Node → Node} :
    ∀ {cs cs' : List Node}, updateMatched pred f cs = some cs' →
      ∃ l c r, cs = l ++ c :: r ∧ pred c = true ∧ (∀ x ∈ l, pred x = false) ∧
        cs' = l ++ f c :: r := by
  intro cs
  induction cs with
  | nil => intro cs' h; simp [updateMatched] at h
  | cons c cs ih =>
      intro cs' h
      by_cases hp : pred c = true
      · refine ⟨[], c, cs, by simp, hp, by simp, ?_⟩
        simp [updateMatched, hp] at h
        simpa using h.symm
      · simp at hp
        simp [updateMatched, hp] at h
        obtain ⟨ds, hds, rfl⟩ := h
        obtain ⟨l, d, r, rfl, hd, hl, rfl⟩ := ih hds
        exact ⟨c :: l, d, r, rfl, hd, by simpa [hp] using hl, rfl⟩

theorem updateMatched_append {pred : Node → Bool} {f : Node → Node} {l : List Node}
    (hl : ∀ x ∈ l, pred x = false) {c : Node} (hc : pred c = true) (r : List Node) :
    updateMatched pred f (l ++ c :: r) = some (l ++ f c :: r) := by
  induction l with
  | nil => simp [updateMatched, hc]
  | cons a l ih =>
      have ha : pred a = false := hl a (by simp)
      have : ∀ x ∈ l, pred x = false := fun x hx => hl x (by simp [hx])
      simp [updateMatched, ha, ih this]

theorem insert_mk_cons (pat0 prt : String) (cs : List Node) (w : Bool) (p part : String)
    (tail : List String) :
    (Node.mk pat0 prt cs w).insert p (part :: tail)
      = match updateMatched (matchPred part) (fun c => c.insert p tail) cs with
        | some cs' => Node.mk pat0 prt cs' w
        | none => Node.mk pat0 prt (cs ++ [(Node.mk "" part [] (isDynPart part)).insert p tail]) w :=
  rfl

theorem insert_insert (p : String) : ∀ (rest : List String) (n : Node),
    (n.insert p rest).insert p rest = n.insert p rest
  | [], _n => rfl
  | part :: tail, Node.mk pat0 prt cs w => by
      rw [insert_mk_cons]
      cases h : updateMatched (matchPred part) (fun c => Node.insert c p tail) cs with
      | some cs' =>
          obtain ⟨l, c, r, hcs, hc, hl, rfl⟩ := updateMatched_eq_some h
          rw [insert_mk_cons,
            updateMatched_append hl (by rw [matchPred_insert]; exact hc) r,
            insert_insert p tail c]
      | none =>
          have hall : ∀ x ∈ cs, matchPred part x = false := updateMatched_eq_none.mp h
          have hg : matchPred part ((Node.mk "" part [] (isDynPart part)).insert p tail) = true := by
            rw [matchPred_insert]
            simp [matchPred, Node.part]
          rw [insert_mk_cons, updateMatched_append hall hg [],
            insert_insert p tail]

theorem lookupKV_addKV_self {β : Type _} (l : List (String × β)) (k : String) (v : β) :
    lookupKV (addKV l k v) k = some v := by
  induction l with
  | nil => simp [addKV, lookupKV, List.find?]
  | cons e rest ih =>
      by_cases h : e.1 == k
      · simp [addKV, h, lookupKV, List.find?]
      · simp only [addKV, h]
        simp only [lookupKV, List.find?] at ih ⊢
        simp [h] at *
        simpa [h] using ih

theorem addKV_addKV {β : Type _} (l : List (String × β)) (k : String) (v1 v2 : β) :
    addKV (addKV l k v1) k v2 = addKV l k v2 := by
  induction l with
  | nil => simp [addKV]
  | cons e rest ih =>
      by_cases h : e.1 == k
      · simp [addKV, h]
      · simp [addKV, h, ih]

theorem lookupKV_addKV_ne {β : Type _} (l : List (String × β)) (k k' : String) (v : β)
    (h : k' ≠ k) : lookupKV (addKV l k v) k' = lookupKV l k' := by
  have hkk' : (k == k') = false := beq_eq_false_iff_ne.mpr (Ne.symm h)
  induction l with
  | nil => simp [addKV, lookupKV, List.find?, hkk']
  | cons e rest ih =>
      by_cases he : e.1 == k
      · have he' : e.1 = k := by simpa using he
        simp [addKV, he, lookupKV, List.find?, hkk', he']
      · simp only [addKV, he, if_false, Bool.false_eq_true]
        by_cases he2 : e.1 == k'
        · simp [lookupKV, List.find?, he2]
        · simp only [lookupKV, List.find?, he2] at ih ⊢
          exact ih

theorem lookupKV_addKV_ne_none {β : Type _} (l : List (String × β)) (k k' : String) (v : β)
    (h : lookupKV l k' ≠ none) : lookupKV (addKV l k v) k' ≠ none := by
  by_cases hk : k' = k
  · subst hk
    rw [lookupKV_addKV_self]
    simp
  · rw [lookupKV_addKV_ne _ _ _ _ hk]
    exact h

theorem search_nil (n : Node) : n.search [] = if n.pattern = "" then none else some n := rfl

theorem search_cons (n : Node) (part : String) (tail : List String) :
    n.search (part :: tail)
      = if headIs '*' n.part then (if n.pattern = "" then none else some n)
        else firstSome (fun c => c.search tail) (n.matchChildren part) := rfl

theorem insert_pattern_nil (n : Node) (p : String) : (n.insert p []).pattern = p := rfl

theorem insert_pattern_cons (n : Node) (p q : String) (t : List String) :
    (n.insert p (q :: t)).pattern = n.pattern := by
  unfold Node.insert
  cases updateMatched (matchPred q) (fun c => Node.insert c p t) n.children <;> rfl

theorem insert_children_nil (n : Node) (p : String) : (n.insert p []).children = n.children := rfl

theorem insert_children_cons (n : Node) (p q : String) (t : List String) :
    (n.insert p (q :: t)).children
      = match updateMatched (matchPred q) (fun c => c.insert p t) n.children with
        | some cs' => cs'
        | none => n.children ++ [(Node.mk "" q [] (isDynPart q)).insert p t] := by
  cases n with
  | mk pat0 prt cs w =>
      rw [insert_mk_cons]
      simp only [Node.children]
      cases updateMatched (matchPred q) (fun c => c.insert p t) cs <;> rfl

theorem firstSome_isSome {f : Node → Option Node} :
    ∀ {cs : List Node}, (firstSome f cs).isSome ↔ ∃ c ∈ cs, (f c).isSome := by
  intro cs
  induction cs with
  | nil => simp [firstSome]
  | cons c cs ih =>
      cases hc : f c with
      | some r => simp [firstSome, hc]
      | none => simp [firstSome, hc, ih]

theorem firstSome_eq_some {f : Node → Option Node} :
    ∀ {cs : List Node} {m : Node}, firstSome f cs = some m → ∃ c ∈ cs, f c = some m := by
  intro cs
  induction cs with
  | nil => intro m h; simp [firstSome] at h
  | cons c cs ih =>
      intro m h
      cases hc : f c with
      | some r =>
          simp only [firstSome, hc] at h
          exact ⟨c, by simp, by rw [hc]; exact h⟩
      | none =>
          simp only [firstSome, hc] at h
          obtain ⟨d, hd, hfd⟩ := ih h
          exact ⟨d, by simp [hd], hfd⟩

theorem mem_matchChildrenAux (part : String) :
    ∀ (cs : List Node) (c : Node),
      (c ∈ (matchChildrenAux part cs).1 ++ (matchChildrenAux part cs).2)
        ↔ (c ∈ cs ∧ (c.part = part ∨ c.isWild = true)) := by
  intro cs
  induction cs with
  | nil => simp [matchChildrenAux]
  | cons a cs ih =>
      intro c
      rcases haux : matchChildrenAux part cs with ⟨ns, ws⟩
      have ih' : ∀ c : Node, c ∈ ns ++ ws ↔ (c ∈ cs ∧ (c.part = part ∨ c.isWild = true)) := by
        intro c; rw [← ih c, haux]
      by_cases h1 : a.part = part
      · simp only [matchChildrenAux, haux, h1, beq_self_eq_true, if_true]
        simp only [List.cons_append, List.mem_cons, List.mem_append]
        constructor
        · rintro (rfl | hns | hws)
          · exact ⟨Or.inl rfl, Or.inl h1⟩
          · obtain ⟨hc, hp⟩ := (ih' c).mp (List.mem_append.mpr (Or.inl hns))
            exact ⟨Or.inr hc, hp⟩
          · obtain ⟨hc, hp⟩ := (ih' c).mp (List.mem_append.mpr (Or.inr hws))
            exact ⟨Or.inr hc, hp⟩
        · rintro ⟨rfl | hc, hp⟩
          · exact Or.inl rfl
          · rcases List.mem_append.mp ((ih' c).mpr ⟨hc, hp⟩) with h | h
            · exact Or.inr (Or.inl h)
            · exact Or.inr (Or.inr h)
      · have h1b : (a.part == part) = false := by simpa using h1
        by_cases h2 : a.isWild = true
        · simp only [matchChildrenAux, haux, h1b, Bool.false_eq_true, if_false, h2, if_true]
          simp only [List.mem_append, List.mem_cons]
          constructor
          · rintro (hns | rfl | hws)
            · obtain ⟨hc, hp⟩ := (ih' c).mp (List.mem_append.mpr (Or.inl hns))
              exact ⟨Or.inr hc, hp⟩
            · exact ⟨Or.inl rfl, Or.inr h2⟩
            · obtain ⟨hc, hp⟩ := (ih' c).mp (List.mem_append.mpr (Or.inr hws))
              exact ⟨Or.inr hc, hp⟩
          · rintro ⟨rfl | hc, hp⟩
            · exact Or.inr (Or.inl rfl)
            · have := List.mem_append.mp ((ih' c).mpr ⟨hc, hp⟩)
              rcases this with h | h
              · exact Or.inl h
              · exact Or.inr (Or.inr h)
        · have h2b : a.isWild = false := by simpa using h2
          simp only [matchChildrenAux, haux, h1b, Bool.false_eq_true, if_false, h2b]
          simp only [List.mem_append, List.mem_cons]
          constructor
          · rintro h
            obtain ⟨hc, hp⟩ := (ih' c).mp (List.mem_append.mpr h)
            exact ⟨Or.inr hc, hp⟩
          · rintro ⟨rfl | hc, hp⟩
            · rcases hp with hp | hp
              · exact absurd hp h1
              · exact absurd hp h2
            · exact List.mem_append.mp ((ih' c).mpr ⟨hc, hp⟩)

theorem mem_matchChildren {n : Node} {part : String} {c : Node} :
    c ∈ n.matchChildren part ↔ (c ∈ n.children ∧ (c.part = part ∨ c.isWild = true)) := by
  unfold Node.matchChildren
  rcases haux : matchChildrenAux part n.children with ⟨ns, ws⟩
  have := mem_matchChildrenAux part n.children c
  rw [haux] at this
  simpa using this

/-- `search` never returns a node whose stored pattern is empty. -/
theorem search_pattern_ne : ∀ (parts : List String) (n m : Node),
    n.search parts = some m → m.pattern ≠ ""
  | [], n, m => by
      intro h
      rw [search_nil] at h
      by_cases hp : n.pattern = ""
      · simp [hp] at h
      · rw [if_neg hp] at h
        injection h with h'
        subst h'
        exact hp
  | part :: tail, n, m => by
      intro h
      rw [search_cons] at h
      by_cases hstar : headIs '*' n.part
      · rw [if_pos hstar] at h
        by_cases hp : n.pattern = ""
        · simp [hp] at h
        · rw [if_neg hp] at h
          injection h with h'
          subst h'
          exact hp
      · rw [if_neg hstar] at h
        obtain ⟨c, _hc, hcs⟩ := firstSome_eq_some h
        exact search_pattern_ne tail c m hcs

theorem InvUpTo_pattern {k d : Nat} {n : Node} (h : InvUpTo k d n) (hp : n.pattern ≠ "") :
    (parsePattern n.pattern).length = d := by
  cases k with
  | zero => exact h hp
  | succ k => exact h.1 hp

theorem InvUpTo_children {k d : Nat} {n : Node} (h : InvUpTo (k+1) d n) :
    ∀ c ∈ n.children, InvUpTo k (d+1) c := h.2

theorem InvUpTo_leaf (k d : Nat) (part : String) (w : Bool) :
    InvUpTo k d (Node.mk "" part [] w) := by
  cases k with
  | zero => intro hp; simp [Node.pattern] at hp
  | succ k =>
      refine ⟨fun hp => absurd rfl hp, ?_⟩
      intro c hc
      simp [Node.children] at hc

theorem InvUpTo_insert (p : String) :
    ∀ (rest : List String) (k d : Nat) (n : Node),
      (parsePattern p).length = d + rest.length → InvUpTo k d n →
      InvUpTo k d (n.insert p rest)
  | [], k, d, n => by
      intro hlen hn
      cases k with
      | zero =>
          intro _hp
          simpa using hlen
      | succ k =>
          refine ⟨fun _hp => by simpa using hlen, ?_⟩
          intro c hc
          exact hn.2 c hc
  | part :: tail, k, d, n => by
      intro hlen hn
      have hlen' : (parsePattern p).length = (d + 1) + tail.length := by
        simp at hlen
        omega
      unfold Node.insert
      cases h : updateMatched (matchPred part) (fun c => Node.insert c p tail) n.children with
      | some cs' =>
          obtain ⟨l, c0, r, hcs, _hc0, _hl, rfl⟩ := updateMatched_eq_some h
          cases k with
          | zero => exact fun hp => InvUpTo_pattern (k := 0) hn hp
          | succ k =>
              refine ⟨fun hp => hn.1 hp, ?_⟩
              intro c hc
              simp only [Node.children] at hc
              rcases List.mem_append.mp hc with hcl | hcr
              · exact hn.2 c (by rw [hcs]; exact List.mem_append.mpr (Or.inl hcl))
              · rcases List.mem_cons.mp hcr with rfl | hcr'
                · exact InvUpTo_insert p tail k (d+1) c0 hlen'
                    (hn.2 c0 (by rw [hcs]; simp))
                · exact hn.2 c (by rw [hcs]; simp [hcr'])
      | none =>
          cases k with
          | zero => exact fun hp => InvUpTo_pattern (k := 0) hn hp
          | succ k =>
              refine ⟨fun hp => hn.1 hp, ?_⟩
              intro c hc
              simp only [Node.children] at hc
              rcases List.mem_append.mp hc with hcl | hcr
              · exact hn.2 c hcl
              · rcases List.mem_cons.mp hcr with rfl | hfalse
                · exact InvUpTo_insert p tail k (d+1) _ hlen' (InvUpTo_leaf k (d+1) part _)
                · simp at hfalse

theorem search_depth : ∀ (parts : List String) (k d : Nat) (n m : Node),
    parts.length ≤ k → InvUpTo k d n → n.search parts = some m →
    (parsePattern m.pattern).length ≤ d + parts.length
  | [], k, d, n, m => by
      intro _hk hinv h
      rw [search_nil] at h
      by_cases hp : n.pattern = ""
      · simp [hp] at h
      · rw [if_neg hp] at h
        injection h with h'
        subst h'
        simp [InvUpTo_pattern hinv hp]
  | part :: tail, k, d, n, m => by
      intro hk hinv h
      rw [search_cons] at h
      by_cases hstar : headIs '*' n.part
      · rw [if_pos hstar] at h
        by_cases hp : n.pattern = ""
        · simp [hp] at h
        · rw [if_neg hp] at h
          injection h with h'
          subst h'
          simp [InvUpTo_pattern hinv hp]
      · rw [if_neg hstar] at h
        obtain ⟨c, hc, hcs⟩ := firstSome_eq_some h
        have hc' : c ∈ n.children := (mem_matchChildren.mp hc).1
        cases k with
        | zero => simp at hk
        | succ k =>
            have := search_depth tail k (d+1) c m (by simpa using hk)
              (InvUpTo_children hinv c hc') hcs
            simp only [List.length_cons]
            omega

theorem parsePatternAux_ne_empty : ∀ (items : List String) (s : String),
    s ∈ parsePatternAux items → s ≠ ""
  | [], s => by simp [parsePatternAux]
  | item :: rest, s => by
      intro hmem
      unfold parsePatternAux at hmem
      by_cases hi : item = ""
      · rw [if_pos hi] at hmem
        exact parsePatternAux_ne_empty rest s hmem
      · rw [if_neg hi] at hmem
        by_cases hw : headIs '*' item
        · rw [if_pos hw] at hmem
          simp at hmem
          subst hmem
          exact hi
        · rw [if_neg hw] at hmem
          rcases List.mem_cons.mp hmem with rfl | h'
          · exact hi
          · exact parsePatternAux_ne_empty rest s h'

theorem parsePattern_ne_empty (pattern s : String) (h : s ∈ parsePattern pattern) : s ≠ "" :=
  parsePatternAux_ne_empty _ s h

theorem RootsInv_newRouter (H : Type _) : RootsInv (newRouter H) := by
  intro m root h k
  simp [newRouter, lookupKV, List.find?] at h

theorem RootsInv_addRoute {H : Type _} {r : Router H} (hr : RootsInv r)
    (method pat : String) (h : H) : RootsInv (addRoute r method pat h) := by
  intro m root hlook k
  simp only [addRoute] at hlook
  by_cases hm : m = method
  · subst hm
    rw [lookupKV_addKV_self] at hlook
    injection hlook with h'
    subst h'
    apply InvUpTo_insert pat (parsePattern pat) k 0
    · simp
    · cases hl : lookupKV r.roots m with
      | none => simpa [hl] using InvUpTo_leaf k 0 "" false
      | some root0 => simpa [hl] using hr m root0 hl k
  · rw [lookupKV_addKV_ne _ _ _ _ hm] at hlook
    exact hr m root hlook k

theorem RootsInv_buildRouter {H : Type _} (ops : List (String × String × H)) :
    RootsInv (buildRouter ops) := by
  have main : ∀ (ops : List (String × String × H)) (r : Router H), RootsInv r →
      RootsInv (ops.foldl (fun r op => addRoute r op.1 op.2.1 op.2.2) r) := by
    intro ops
    induction ops with
    | nil => exact fun r hr => hr
    | cons op ops ih => exact fun r hr => ih _ (RootsInv_addRoute hr _ _ _)
  exact main ops _ (RootsInv_newRouter H)

theorem getRouteParts_eq {H : Type _} (r : Router H) (method : String) (sp : List String) :
    getRouteParts r method sp
      = (lookupKV r.roots method).bind fun root =>
          (root.search sp).map fun n => (n, extractParams (parsePattern n.pattern) sp 0) := by
  unfold getRouteParts
  cases lookupKV r.roots method with
  | none => rfl
  | some root =>
      show (match root.search sp with
            | none => none
            | some n => some (n, extractParams (parsePattern n.pattern) sp 0))
          = (root.search sp).map fun n => (n, extractParams (parsePattern n.pattern) sp 0)
      cases root.search sp with
      | none => rfl
      | some n => rfl

theorem isSome_map_opt {α β : Type _} (f : α → β) (o : Option α) :
    (o.map f).isSome = o.isSome := by cases o <;> rfl

/-- Inserting a route with a non-empty pattern never makes a previously
resolving search fail. -/
theorem search_isSome_insert (p : String) (hp : p ≠ "") :
    ∀ (parts : List String) (n : Node) (rest0 : List String),
      (n.search parts).isSome → ((n.insert p rest0).search parts).isSome
  | [], n, rest0 => by
      intro h
      rw [search_nil] at h ⊢
      by_cases hn : n.pattern = ""
      · simp [hn] at h
      · cases rest0 with
        | nil => simp [insert_pattern_nil, hp]
        | cons q t => simp [insert_pattern_cons, hn]
  | part :: tail, n, rest0 => by
      intro h
      rw [search_cons] at h ⊢
      rw [insert_part]
      by_cases hstar : headIs '*' n.part
      · rw [if_pos hstar] at h ⊢
        by_cases hn : n.pattern = ""
        · simp [hn] at h
        · cases rest0 with
          | nil => simp [insert_pattern_nil, hp]
          | cons q t => simp [insert_pattern_cons, hn]
      · rw [if_neg hstar] at h ⊢
        rw [firstSome_isSome] at h ⊢
        obtain ⟨c, hc, hcsome⟩ := h
        obtain ⟨hcmem, hcprop⟩ := mem_matchChildren.mp hc
        cases rest0 with
        | nil =>
            refine ⟨c, mem_matchChildren.mpr ⟨?_, hcprop⟩, hcsome⟩
            rw [insert_children_nil]
            exact hcmem
        | cons q t =>
            cases hup : updateMatched (matchPred q) (fun c => Node.insert c p t) n.children with
            | none =>
                refine ⟨c, mem_matchChildren.mpr ⟨?_, hcprop⟩, hcsome⟩
                rw [insert_children_cons, hup]
                exact List.mem_append.mpr (Or.inl hcmem)
            | some cs' =>
                obtain ⟨l, c0, r, hchil, _hc0, _hl, rfl⟩ := updateMatched_eq_some hup
                rw [hchil] at hcmem
                rcases List.mem_append.mp hcmem with hcl | hcr
                · refine ⟨c, mem_matchChildren.mpr ⟨?_, hcprop⟩, hcsome⟩
                  rw [insert_children_cons, hup]
                  exact List.mem_append.mpr (Or.inl hcl)
                · rcases List.mem_cons.mp hcr with rfl | hcr'
                  · refine ⟨c.insert p t, mem_matchChildren.mpr ⟨?_, ?_⟩, ?_⟩
                    · rw [insert_children_cons, hup]
                      simp
                    · rw [insert_part, insert_isWild]
                      exact hcprop
                    · exact search_isSome_insert p hp tail c t hcsome
                  · refine ⟨c, mem_matchChildren.mpr ⟨?_, hcprop⟩, hcsome⟩
                    rw [insert_children_cons, hup]
                    simp [hcr']

theorem self_mem_patternsUpTo (d : Nat) (n : Node) : n.pattern ∈ patternsUpTo d n := by
  cases d <;> simp [patternsUpTo]

theorem mem_patternsUpTo_of_child {d : Nat} {n c : Node} {q : String}
    (hc : c ∈ n.children) (hq : q ∈ patternsUpTo d c) : q ∈ patternsUpTo (d+1) n := by
  simp only [patternsUpTo, List.mem_cons, List.mem_flatten, List.mem_map]
  exact Or.inr ⟨patternsUpTo d c, ⟨c, hc, rfl⟩, hq⟩

theorem patternsUpTo_leaf (d : Nat) (part : String) (w : Bool) :
    patternsUpTo d (Node.mk "" part [] w) = [""] := by
  cases d <;> simp [patternsUpTo, Node.pattern, Node.children]

/-- A search hit's pattern is stored in the trie within depth
`parts.length`. -/
theorem search_mem_patternsUpTo : ∀ (parts : List String) (d : Nat) (n m : Node),
    parts.length ≤ d → n.search parts = some m → m.pattern ∈ patternsUpTo d n
  | [], d, n, m => by
      intro _hd h
      rw [search_nil] at h
      by_cases hn : n.pattern = ""
      · simp [hn] at h
      · rw [if_neg hn] at h
        injection h with h'
        subst h'
        exact self_mem_patternsUpTo d n
  | part :: tail, d, n, m => by
      intro hd h
      rw [search_cons] at h
      by_cases hstar : headIs '*' n.part
      · rw [if_pos hstar] at h
        by_cases hn : n.pattern = ""
        · simp [hn] at h
        · rw [if_neg hn] at h
          injection h with h'
          subst h'
          exact self_mem_patternsUpTo d n
      · rw [if_neg hstar] at h
        obtain ⟨c, hc, hcs⟩ := firstSome_eq_some h
        cases d with
        | zero => simp at hd
        | succ d =>
            exact mem_patternsUpTo_of_child (mem_matchChildren.mp hc).1
              (search_mem_patternsUpTo tail d c m (by simpa using hd) hcs)

/-- Patterns after an insertion: each one was already present, or is the
inserted pattern, or is the empty marker of a fresh prefix node. -/
theorem patternsUpTo_insert (p : String) :
    ∀ (rest0 : List String) (d : Nat) (n : Node) (q : String),
      q ∈ patternsUpTo d (n.insert p rest0) →
      q ∈ patternsUpTo d n ∨ q = p ∨ q = ""
  | [], d, n, q => by
      intro hq
      cases d with
      | zero =>
          simp only [patternsUpTo] at hq
          simp only [insert_pattern_nil] at hq
          rcases List.mem_singleton.mp hq with rfl
          exact Or.inr (Or.inl rfl)
      | succ d =>
          simp only [patternsUpTo, insert_pattern_nil, insert_children_nil,
            List.mem_cons] at hq
          rcases hq with rfl | hq
          · exact Or.inr (Or.inl rfl)
          · exact Or.inl (by simp [patternsUpTo, List.mem_cons]; right; exact (by simpa using hq))
  | q0 :: t, d, n, q => by
      intro hq
      cases d with
      | zero =>
          simp only [patternsUpTo, insert_pattern_cons] at hq
          rcases List.mem_singleton.mp hq with rfl
          exact Or.inl (by simp [patternsUpTo])
      | succ d =>
          simp only [patternsUpTo, insert_pattern_cons, List.mem_cons] at hq
          rcases hq with rfl | hq
          · exact Or.inl (by simp [patternsUpTo])
          · simp only [List.mem_flatten, List.mem_map] at hq
            obtain ⟨_, ⟨x, hx, rfl⟩, hqx⟩ := hq
            rw [insert_children_cons] at hx
            cases hup : updateMatched (matchPred q0) (fun c => Node.insert c p t) n.children with
            | none =>
                rw [hup] at hx
                rcases List.mem_append.mp hx with hx' | hx'
                · exact Or.inl (mem_patternsUpTo_of_child hx' hqx)
                · rcases List.mem_singleton.mp hx' with rfl
                  rcases patternsUpTo_insert p t d _ q hqx with hin | hin
                  · rw [patternsUpTo_leaf] at hin
                    rcases List.mem_singleton.mp hin with rfl
                    exact Or.inr (Or.inr rfl)
                  · exact Or.inr hin
            | some cs' =>
                rw [hup] at hx
                obtain ⟨l, c0, r, hchil, _hc0, _hl, hcs'⟩ := updateMatched_eq_some hup
                subst hcs'
                rcases List.mem_append.mp hx with hx' | hx'
                · refine Or.inl (mem_patternsUpTo_of_child ?_ hqx)
                  rw [hchil]
                  exact List.mem_append.mpr (Or.inl hx')
                · rcases List.mem_cons.mp hx' with rfl | hx''
                  · rcases patternsUpTo_insert p t d c0 q hqx with hin | hin
                    · refine Or.inl (mem_patternsUpTo_of_child ?_ hin)
                      rw [hchil]
                      simp
                    · exact Or.inr hin
                  · refine Or.inl (mem_patternsUpTo_of_child ?_ hqx)
                    rw [hchil]
                    simp [hx'']

theorem HandlersInv_newRouter (H : Type _) : HandlersInv (newRouter H) := by
  intro m root h
  simp [newRouter, lookupKV, List.find?] at h

theorem HandlersInv_addRoute {H : Type _} {r : Router H} (hr : HandlersInv r)
    (method pat : String) (h : H) : HandlersInv (addRoute r method pat h) := by
  intro m root hlook d q hq hqne
  simp only [addRoute] at hlook ⊢
  by_cases hm : m = method
  · subst hm
    rw [lookupKV_addKV_self] at hlook
    injection hlook with h'
    subst h'
    rcases patternsUpTo_insert pat (parsePattern pat) d _ q hq with hin | rfl | rfl
    · cases hl : lookupKV r.roots m with
      | none =>
          rw [hl] at hin
          simp only [Option.getD_none] at hin
          rw [patternsUpTo_leaf] at hin
          exact absurd (List.mem_singleton.mp hin) hqne
      | some root0 =>
          rw [hl] at hin
          simp only [Option.getD_some] at hin
          exact lookupKV_addKV_ne_none _ _ _ _ (hr m root0 hl d q hin hqne)
    · rw [lookupKV_addKV_self]
      simp
    · exact absurd rfl hqne
  · rw [lookupKV_addKV_ne _ _ _ _ hm] at hlook
    exact lookupKV_addKV_ne_none _ _ _ _ (hr m root hlook d q hq hqne)

theorem HandlersInv_buildRouter {H : Type _} (ops : List (String × String × H)) :
    HandlersInv (buildRouter ops) := by
  have main : ∀ (ops : List (String × String × H)) (r : Router H), HandlersInv r →
      HandlersInv (ops.foldl (fun r op => addRoute r op.1 op.2.1 op.2.2) r) := by
    intro ops
    induction ops with
    | nil => exact fun r hr => hr
    | cons op ops ih => exact fun r hr => ih _ (HandlersInv_addRoute hr _ _ _)
  exact main ops _ (HandlersInv_newRouter H)

theorem getRouteParts_registered {H : Type _} {r : Router H} (hinv : HandlersInv r)
    {method : String} {sp : List String} {n : Node} {ps : List (String × String)}
    (h : getRouteParts r method sp = some (n, ps)) :
    lookupKV r.handlers (method ++ "-" ++ n.pattern) ≠ none := by
  rw [getRouteParts_eq] at h
  cases hl : lookupKV r.roots method with
  | none => rw [hl] at h; simp at h
  | some root =>
      rw [hl] at h
      simp only [Option.some_bind] at h
      cases hs : root.search sp with
      | none => rw [hs] at h; simp at h
      | some m0 =>
          rw [hs] at h
          simp only [Option.map_some', Option.some.injEq, Prod.mk.injEq] at h
          obtain ⟨rfl, -⟩ := h
          exact hinv method root hl sp.length m0.pattern
            (search_mem_patternsUpTo sp sp.length root m0 le_rfl hs)
            (search_pattern_ne sp root m0 hs)

theorem getRouteParts_isSome_addRoute {H : Type _} (r : Router H) (method : String)
    (sp : List String) (m2 p2 : String) (h2 : H) (hp2 : p2 ≠ "")
    (hsome : (getRouteParts r method sp).isSome) :
    (getRouteParts (addRoute r m2 p2 h2) method sp).isSome := by
  rw [getRouteParts_eq] at hsome ⊢
  cases hl : lookupKV r.roots method with
  | none => rw [hl] at hsome; simp at hsome
  | some root =>
      rw [hl] at hsome
      simp only [Option.some_bind, isSome_map_opt] at hsome
      simp only [addRoute]
      by_cases hm : method = m2
      · subst hm
        rw [lookupKV_addKV_self, hl]
        simp only [Option.some_bind, Option.getD_some, isSome_map_opt]
        exact search_isSome_insert p2 hp2 sp root (parsePattern p2) hsome
      · rw [lookupKV_addKV_ne _ _ _ _ hm, hl]
        simpa [isSome_map_opt] using hsome

theorem matchChildrenAux_eq_filter (part : String) : ∀ cs : List Node,
    matchChildrenAux part cs
      = (cs.filter (fun c => c.part == part),
         cs.filter (fun c => !(c.part == part) && c.isWild)) := by
  intro cs
  induction cs with
  | nil => simp [matchChildrenAux]
  | cons a cs ih =>
      by_cases h1 : a.part == part
      · simp [matchChildrenAux, ih, h1]
      · by_cases h2 : a.isWild <;>
          simp [matchChildrenAux, ih, h1, h2]

theorem matchChildren_statics_first (n : Node) (part : String) :
    n.matchChildren part
      = n.children.filter (fun c => c.part == part)
        ++ n.children.filter (fun c => !(c.part == part) && c.isWild) := by
  unfold Node.matchChildren
  rw [matchChildrenAux_eq_filter]

/-- C1 (corrected, counterexample): the claim "a handler that returns without
ever calling Next stops the chain after itself" is false.  In a two-handler
chain whose first handler never calls `Next`, the second handler still runs:
`Next`'s own loop advances the cursor and invokes it. -/
theorem C1_counterexample :
    runChain 100 [[Act.log "m1"], [Act.log "h"]] = ["m1", "h"] := rfl

/-- C1 (amended): a handler that returns without calling `Next` does not
stop the chain — the loop in `Next` advances to the subsequent handler; the
chain stops after a handler only when the cursor has been set to at least
the chain length, e.g. by `Context.Fail`. -/
theorem C1_amended (a b s t : String) :
    runChain 100 [[Act.log a], [Act.log b]] = [a, b] ∧
    runChain 100 [[Act.log s, Act.fail], [Act.log t]] = [s] :=
  ⟨rfl, rfl⟩

/-- C2: static children are tried before wildcard children at every trie
level (`matchChildren` lists exact-segment matches before wildcard
matches), and with both `/users/new` and `/users/:id` registered — in
either order — resolving `/users/new` yields the static pattern, never
`:id`. -/
theorem C2_static_over_dynamic :
    (∀ (n : Node) (part : String),
      n.matchChildren part
        = n.children.filter (fun c => c.part == part)
          ++ n.children.filter (fun c => !(c.part == part) && c.isWild)) ∧
    ((getRoute (buildRouter [("GET", "/users/new", (0 : Nat)), ("GET", "/users/:id", 1)])
        "GET" "/users/new").map (fun p => (p.1.pattern, p.2)) = some ("/users/new", [])) ∧
    ((getRoute (buildRouter [("GET", "/users/:id", (1 : Nat)), ("GET", "/users/new", 0)])
        "GET" "/users/new").map (fun p => (p.1.pattern, p.2)) = some ("/users/new", [])) :=
  ⟨matchChildren_statics_first, by rfl, by rfl⟩

/-- C5: for a chain M1, M2, H where each middleware calls `Next` exactly
once, execution order is M1-pre, M2-pre, H, M2-post, M1-post — post-phases
in exact reverse order of pre-phases. -/
theorem C5_chain_order (p1 q1 p2 q2 h : String) :
    runChain 100 [mwActs p1 q1, mwActs p2 q2, [Act.log h]] = [p1, p2, h, q2, q1] := rfl

/-- C6: a middleware that calls `Fail` (cursor := chain length) before
calling `Next` prevents every later pre-phase and the terminal handler from
running, while the post-phases of middlewares whose pre-phase already ran
still execute, in reverse order. -/
theorem C6_short_circuit (p1 q1 p2 q2 p3 q3 h : String) :
    runChain 100 [mwActs p1 q1, [Act.log p2, Act.fail, Act.next, Act.log q2],
      mwActs p3 q3, [Act.log h]] = [p1, p2, q2, q1] := rfl

/-- C7: registering a further route with a non-empty pattern (in particular
a second, differently named dynamic segment at an already occupied
position) never breaks previously working resolution: every request that
resolved before still resolves afterwards, to a pattern that has a
registered handler in the handler table. -/
theorem C7_second_insertion_preserves (H : Type) (ops : List (String × String × H))
    (m2 p2 : String) (h2 : H) (method : String) (searchParts : List String)
    (hp2 : p2 ≠ "")
    (hsome : (getRouteParts (buildRouter ops) method searchParts).isSome) :
    ∃ n ps,
      getRouteParts (buildRouter (ops ++ [(m2, p2, h2)])) method searchParts = some (n, ps) ∧
      lookupKV (buildRouter (ops ++ [(m2, p2, h2)])).handlers (method ++ "-" ++ n.pattern)
        ≠ none := by
  have hb : buildRouter (ops ++ [(m2, p2, h2)]) = addRoute (buildRouter ops) m2 p2 h2 := by
    simp [buildRouter, List.foldl_append]
  have hsome2 : (getRouteParts (buildRouter (ops ++ [(m2, p2, h2)])) method searchParts).isSome := by
    rw [hb]
    exact getRouteParts_isSome_addRoute _ _ _ _ _ _ hp2 hsome
  obtain ⟨⟨n, ps⟩, hnp⟩ := Option.isSome_iff_exists.mp hsome2
  exact ⟨n, ps, hnp, getRouteParts_registered (HandlersInv_buildRouter _) hnp⟩

/-- C7 witness: `/users/:id` registered, then `/users/:name/x` added; the
request `/users/7` still resolves to a registered pattern. -/
theorem C7_witness :
    ("/users/:name/x" ≠ "" ∧
      (getRouteParts (buildRouter [("GET", "/users/:id", (0 : Nat))]) "GET"
        ["users", "7"]).isSome) ∧
    (∃ n ps,
      getRouteParts (buildRouter ([("GET", "/users/:id", (0 : Nat))] ++
        [("GET", "/users/:name/x", 1)])) "GET" ["users", "7"] = some (n, ps) ∧
      lookupKV (buildRouter ([("GET", "/users/:id", (0 : Nat))] ++
        [("GET", "/users/:name/x", 1)])).handlers ("GET" ++ "-" ++ n.pattern) ≠ none) :=
  ⟨⟨by decide, by decide⟩,
    C7_second_insertion_preserves Nat [("GET", "/users/:id", 0)] "GET" "/users/:name/x" 1
      "GET" ["users", "7"] (by decide) (by decide)⟩

/-- C8: registering the same method and pattern twice yields a router equal
to the one obtained by the second registration alone: the trie gains no
duplicate nodes and the handler mapping keeps the last handler. -/
theorem C8_register_idempotent {H : Type _} (r : Router H) (method pat : String) (h1 h2 : H) :
    addRoute (addRoute r method pat h1) method pat h2 = addRoute r method pat h2 := by
  unfold addRoute
  simp only [lookupKV_addKV_self, Option.getD_some, addKV_addKV]
  rw [insert_insert]

/-- C9: `search` refuses nodes whose stored pattern is empty, so a request
path that is merely a structural prefix of registered routes yields no
match, and `getRoute` returns nothing, even though the prefix node exists
in the trie (here: `/a` with only `/a/b` registered). -/
theorem C9_empty_pattern_no_match :
    (∀ (parts : List String) (n m : Node), n.search parts = some m → m.pattern ≠ "") ∧
    (getRoute (buildRouter [("GET", "/a/b", (0 : Nat))]) "GET" "/a" = none ∧
      ∃ root, lookupKV (buildRouter [("GET", "/a/b", (0 : Nat))]).roots "GET" = some root ∧
        ∃ c ∈ root.children, c.part = "a" ∧ c.pattern = "") := by
  refine ⟨search_pattern_ne, by rfl, Node.mk "" "" [Node.mk "" "a" [Node.mk "/a/b" "b" [] false] false] false, by rfl, ?_⟩
  exact ⟨Node.mk "" "a" [Node.mk "/a/b" "b" [] false] false, by simp [Node.children], rfl, rfl⟩

/-- C9 witness: a node with non-empty pattern is returned by `search` and
indeed has a non-empty pattern. -/
theorem C9_witness :
    (Node.mk "/x" "x" [] false).search [] = some (Node.mk "/x" "x" [] false) ∧
    (Node.mk "/x" "x" [] false).pattern ≠ "" :=
  ⟨by rfl, C9_empty_pattern_no_match.1 [] (Node.mk "/x" "x" [] false) (Node.mk "/x" "x" [] false) (by rfl)⟩

/-- C10: segments produced by `parsePattern` are never empty, so every
`part[0]` byte access in `insert`, `matchChild` and `getRoute` is in
bounds; and a matched pattern has at most as many parsed segments as the
request path, so the `searchParts[index]` accesses of the
parameter-extraction loop are in bounds as well. -/
theorem C10_routing_safe :
    (∀ (pattern s : String), s ∈ parsePattern pattern → s ≠ "") ∧
    (∀ (H : Type) (ops : List (String × String × H)) (method path : String)
        (n : Node) (ps : List (String × String)),
      getRoute (buildRouter ops) method path = some (n, ps) →
      n.pattern ≠ "" ∧ (parsePattern n.pattern).length ≤ (parsePattern path).length) := by
  constructor
  · exact parsePattern_ne_empty
  · intro H ops method path n ps h
    unfold getRoute at h
    rw [getRouteParts_eq] at h
    cases hl : lookupKV (buildRouter ops).roots method with
    | none => rw [hl] at h; simp at h
    | some root =>
        rw [hl] at h
        simp only [Option.some_bind] at h
        cases hs : root.search (parsePattern path) with
        | none => rw [hs] at h; simp at h
        | some m =>
            rw [hs] at h
            simp only [Option.map_some', Option.some.injEq, Prod.mk.injEq] at h
            obtain ⟨rfl, -⟩ := h
            refine ⟨search_pattern_ne _ _ _ hs, ?_⟩
            have hinv := RootsInv_buildRouter ops method root hl (parsePattern path).length
            have := search_depth (parsePattern path) (parsePattern path).length 0 root m
              le_rfl hinv hs
            simpa using this

/-- C10 witness at a concrete pattern, segment and request. -/
theorem C10_witness :
    ("p" ∈ parsePattern "/p/go" ∧ "p" ≠ "") ∧
    (getRoute (buildRouter [("GET", "/p/:lang/doc", (0 : Nat))]) "GET" "/p/go/doc"
        = some (Node.mk "/p/:lang/doc" "doc" [] false, [("lang", "go")]) ∧
      (Node.mk "/p/:lang/doc" "doc" [] false).pattern ≠ "" ∧
      (parsePattern (Node.mk "/p/:lang/doc" "doc" [] false).pattern).length
        ≤ (parsePattern "/p/go/doc").length) :=
  ⟨⟨by decide, C10_routing_safe.1 "/p/go" "p" (by decide)⟩,
   by rfl,
   C10_routing_safe.2 Nat [("GET", "/p/:lang/doc", 0)] "GET" "/p/go/doc"
     (Node.mk "/p/:lang/doc" "doc" [] false) [("lang", "go")] (by rfl)⟩

/-! Facts about `:`/`*`-prefixed segment strings. -/

theorem mk_data (s : String) : String.mk s.data = s := rfl

theorem data_star_append (name : String) : ("*" ++ name).data = '*' :: name.data := by
  simp [String.data_append]

theorem headIs_star_append (name : String) : headIs '*' ("*" ++ name) = true := by
  simp [headIs, data_star_append]

theorem isDynPart_star_append (name : String) : isDynPart ("*" ++ name) = true := by
  simp [isDynPart, headIs_star_append]

theorem dropFirst_star_append (name : String) : dropFirst ("*" ++ name) = name := by
  simp [dropFirst, data_star_append, mk_data]

theorem length_pos_of_ne (s : String) (h : s ≠ "") : 0 < s.length := by
  cases s with
  | mk l =>
      cases l with
      | nil => exact absurd rfl h
      | cons c cs => simp [String.length]

/-- A `*`-leading item can only be the last item of a parsed pattern:
the collection loop stops at the first such item. -/
theorem parsePatternAux_star_last : ∀ (items : List String),
    ∀ x ∈ (parsePatternAux items).dropLast, headIs '*' x = false
  | [] => by simp [parsePatternAux]
  | item :: rest => by
      intro x hx
      unfold parsePatternAux at hx
      by_cases hi : item = ""
      · rw [if_pos hi] at hx
        exact parsePatternAux_star_last rest x hx
      · rw [if_neg hi] at hx
        by_cases hw : headIs '*' item
        · rw [if_pos hw] at hx
          simp at hx
        · rw [if_neg hw] at hx
          cases hrest : parsePatternAux rest with
          | nil => rw [hrest] at hx; simp at hx
          | cons y l =>
              rw [hrest] at hx
              simp only [List.dropLast] at hx
              rcases List.mem_cons.mp hx with rfl | hx'
              · simpa using hw
              · apply parsePatternAux_star_last rest
                rw [hrest]
                simpa [List.dropLast] using hx'

theorem parsePattern_star_last (pattern : String) :
    ∀ x ∈ (parsePattern pattern).dropLast, headIs '*' x = false :=
  parsePatternAux_star_last _

theorem matchChildren_singleton_match (pat prt : String) (w : Bool) (c : Node) (part : String)
    (h : c.part = part ∨ c.isWild = true) :
    (Node.mk pat prt [c] w).matchChildren part = [c] := by
  unfold Node.matchChildren
  rcases h with h | h
  · have hb : (c.part == part) = true := by simpa using h
    simp [matchChildrenAux, Node.children, hb]
  · cases hb : c.part == part <;> simp [matchChildrenAux, Node.children, hb, h]

/-- Searching the single-chain trie of a catch-all pattern: request segments
that extend the prefix segments by at least one further segment reach the
`*`-node carrying the pattern. -/
theorem chain_search_star : ∀ (pre rest : List String) (P prt name : String) (w : Bool),
    P ≠ "" → rest ≠ [] →
    headIs '*' prt = false →
    (∀ x ∈ pre, headIs '*' x = false) →
    ∃ m, ((Node.mk "" prt [] w).insert P (pre ++ ["*" ++ name])).search (pre ++ rest)
        = some m ∧ m.pattern = P
  | [], rest, P, prt, name, w => by
      intro hP hrest hprt _hpre
      have hnode : (Node.mk "" prt [] w).insert P ([] ++ ["*" ++ name])
          = Node.mk "" prt [Node.mk P ("*" ++ name) [] (isDynPart ("*" ++ name))] w := by
        simp only [List.nil_append]
        rw [insert_mk_cons]
        simp [updateMatched]
        rfl
      cases rest with
      | nil => exact absurd rfl hrest
      | cons r0 rest' =>
          refine ⟨Node.mk P ("*" ++ name) [] (isDynPart ("*" ++ name)), ?_, rfl⟩
          rw [hnode]
          simp only [List.nil_append]
          rw [search_cons]
          simp only [Node.part]
          rw [if_neg (by simp [hprt])]
          rw [matchChildren_singleton_match _ _ _ _ _
            (Or.inr (show (Node.mk P ("*" ++ name) [] (isDynPart ("*" ++ name))).isWild = true by
              simp [Node.isWild, isDynPart_star_append]))]
          have hsg : (Node.mk P ("*" ++ name) [] (isDynPart ("*" ++ name))).search rest'
              = some (Node.mk P ("*" ++ name) [] (isDynPart ("*" ++ name))) := by
            cases rest' with
            | nil =>
                rw [search_nil]
                simp [Node.pattern, hP]
            | cons s ss =>
                rw [search_cons]
                simp only [Node.part]
                rw [if_pos (by simp [headIs_star_append])]
                simp [Node.pattern, hP]
          simp [firstSome, hsg]
  | a :: pre', rest, P, prt, name, w => by
      intro hP hrest hprt hpre
      have hnode : (Node.mk "" prt [] w).insert P ((a :: pre') ++ ["*" ++ name])
          = Node.mk "" prt
              [(Node.mk "" a [] (isDynPart a)).insert P (pre' ++ ["*" ++ name])] w := by
        simp only [List.cons_append]
        rw [insert_mk_cons]
        simp [updateMatched]
      obtain ⟨m, hm, hmp⟩ := chain_search_star pre' rest P a name (isDynPart a) hP hrest
        (hpre a (by simp)) (fun x hx => hpre x (by simp [hx]))
      refine ⟨m, ?_, hmp⟩
      rw [hnode]
      simp only [List.cons_append]
      rw [search_cons]
      simp only [Node.part]
      rw [if_neg (by simp [hprt])]
      rw [matchChildren_singleton_match _ _ _ _ _
        (Or.inl (by rw [insert_part]; rfl))]
      simp [firstSome, hm]

/-- The parameter-extraction loop emits the catch-all binding: the `*`
segment's name is bound to the request segments from its index on, rejoined
with `/`. -/
theorem extract_star_mem : ∀ (pre searchParts : List String) (base : Nat) (name : String),
    (∀ x ∈ pre, headIs '*' x = false) →
    name ≠ "" →
    (name, String.intercalate "/" (searchParts.drop (base + pre.length)))
      ∈ extractParams (pre ++ ["*" ++ name]) searchParts base
  | [], searchParts, base, name => by
      intro _ hname
      simp only [List.nil_append, List.length_nil, Nat.add_zero]
      unfold extractParams
      rw [if_pos (by simp [headIs_star_append])]
      rw [if_pos ?hlen]
      case hlen =>
        have h1 : ("*" ++ name).length = 1 + name.length := String.length_append _ _
        have h2 : 0 < name.length := length_pos_of_ne name hname
        simp only [h1]
        omega
      simp [dropFirst_star_append]
  | a :: pre', searchParts, base, name => by
      intro hpre hname
      simp only [List.cons_append]
      have IH := extract_star_mem pre' searchParts (base+1) name
        (fun x hx => hpre x (by simp [hx])) hname
      have harith : base + (a :: pre').length = (base + 1) + pre'.length := by
        simp only [List.length_cons]
        omega
      unfold extractParams
      rw [if_neg (by simp [hpre a (by simp)])]
      by_cases hcolon : headIs ':' a
      · rw [if_pos hcolon, harith]
        exact List.mem_cons.mpr (Or.inr IH)
      · rw [if_neg hcolon, harith]
        exact IH

/-- The router that registers a single route has exactly one trie root: the
fresh node with the pattern's segments inserted. -/
theorem lookup_buildRouter_single {H : Type _} (method P : String) (h : H) :
    lookupKV (buildRouter [(method, P, h)]).roots method
      = some ((Node.mk "" "" [] false).insert P (parsePattern P)) := by
  show lookupKV (addRoute (newRouter H) method P h).roots method = _
  simp only [addRoute, newRouter]
  rw [lookupKV_addKV_self]
  simp [lookupKV, List.find?]

/-- C4 (corrected, counterexample): the claim fails as stated at the
registered pattern `/static/*filepath` and the request path
`/static/*y/z`, which extends the static prefix by the segments `*y` and
`z`.  The claim requires `filepath` bound to `*y/z`, but `parsePattern`
truncates the request path at the `*`-leading segment, so the code binds
`filepath` to `*y` only. -/
theorem C4_counterexample :
    (getRoute (buildRouter [("GET", "/static/*filepath", (0 : Nat))]) "GET"
        "/static/*y/z").map (fun p => (p.1.pattern, p.2))
      = some ("/static/*filepath", [("filepath", "*y")]) ∧ ("*y" : String) ≠ "*y/z" :=
  ⟨by rfl, by decide⟩

/-- C4 (amended): for every registered pattern P whose parsed segments are
a prefix followed by a final `*name` catch-all segment, and every request
path whose parsed segments extend that prefix by one or more segments,
`getRoute` on the path returns P's node with `name` bound to those
remaining parsed segments rejoined with `/`.  (Request paths are parsed by
`parsePattern` too, which truncates at a `*`-leading segment, so extension
segments beyond such a segment are dropped before matching, as the
counterexample shows.) -/
theorem C4_catchall (H : Type) (h : H) (method P path name : String)
    (pre rest : List String)
    (hP : parsePattern P = pre ++ ["*" ++ name])
    (hname : name ≠ "")
    (hpath : parsePattern path = pre ++ rest)
    (hrest : rest ≠ []) :
    ∃ n params,
      getRoute (buildRouter [(method, P, h)]) method path = some (n, params) ∧
        n.pattern = P ∧ (name, String.intercalate "/" rest) ∈ params := by
  have hPne : P ≠ "" := by
    intro h0
    subst h0
    rw [show parsePattern "" = [] from rfl] at hP
    exact absurd hP.symm (by simp)
  have hpre_star : ∀ x ∈ pre, headIs '*' x = false := by
    intro x hx
    apply parsePattern_star_last P
    rw [hP, List.dropLast_concat]
    exact hx
  obtain ⟨m, hm, hmp⟩ := chain_search_star pre rest P "" name false hPne hrest rfl hpre_star
  have hfull : getRoute (buildRouter [(method, P, h)]) method path
      = some (m, extractParams (parsePattern m.pattern) (pre ++ rest) 0) := by
    unfold getRoute
    rw [hpath, getRouteParts_eq, lookup_buildRouter_single, hP]
    simp only [Option.some_bind]
    rw [hm]
    simp
  refine ⟨m, _, hfull, hmp, ?_⟩
  rw [hmp, hP]
  have hmem := extract_star_mem pre (pre ++ rest) 0 name hpre_star hname
  have hdrop : (pre ++ rest).drop (0 + pre.length) = rest := by
    simp [List.drop_left]
  rwa [hdrop] at hmem

/-- C4 witness: pattern `/static/*filepath`, path `/static/css/a.css`. -/
theorem C4_witness :
    (parsePattern "/static/*filepath" = ["static"] ++ ["*" ++ "filepath"] ∧
      ("filepath" : String) ≠ "" ∧
      parsePattern "/static/css/a.css" = ["static"] ++ ["css", "a.css"] ∧
      (["css", "a.css"] : List String) ≠ []) ∧
    (∃ n params,
      getRoute (buildRouter [("GET", "/static/*filepath", (0 : Nat))]) "GET"
        "/static/css/a.css" = some (n, params) ∧ n.pattern = "/static/*filepath" ∧
        ("filepath", String.intercalate "/" ["css", "a.css"]) ∈ params) :=
  ⟨⟨by decide, by decide, by decide, by decide⟩,
    C4_catchall Nat 0 "GET" "/static/*filepath" "/static/css/a.css" "filepath"
      ["static"] ["css", "a.css"] (by decide) (by decide) (by decide) (by decide)⟩

end Zinc
